import Mathlib

/-
Verification of the stream-catalog normalizer/selector and the JSON cache of
the youtube-downloader repository.

The embedding below translates the pure parts of `src/downloader.py` and
`src/cache.py` into Lean definitions:

* `StreamOption` is the dataclass of the same name; Python `Optional[T]`
  becomes `Option T`.
* `RawFormat` models one raw format dictionary as consumed by
  `YouTubeDownloader.fetch_streams` (the fields the code reads via `f.get`).
* Python truthiness on optional values is made explicit (`truthyStr`,
  `truthyNat`): `None`, `""` and `0` are falsy.
* `fetch_streams` is the pure normalization pipeline of
  `YouTubeDownloader.fetch_streams` applied to the list of raw formats
  (the network fetch that produces that list is out of scope): filter,
  field derivation, insertion-ordered de-duplication keyed on
  `(resolution, mime_type)` (Python dict semantics), and a stable sort by
  numeric resolution descending (Python `list.sort` with `reverse=True`
  is stable; `List.insertionSort` with the reflexive "greater or equal on
  the sort key" relation has the same behaviour).
* `resolution_index` is `YouTubeDownloader._resolution_index`:
  `re.search(r"(\d+)", s)` takes the first maximal run of digits.
* `select_stream_for_resolution` is the method of the same name.
* The cache operations model `Cache._load`, `Cache.get`, `Cache.set` and
  `Cache._save`; the outcome of the underlying file I/O is passed in as an
  explicit `Except` value and the in-memory JSON object is an
  insertion-ordered association list (`mapSet` is Python dict assignment:
  overwrite in place, else append).
-/

structure StreamOption where
  itag : String
  mime_type : String
  resolution : Option String
  fps : Option Nat
  abr : Option String
  filesize : Option Nat
  deriving DecidableEq, Repr

/-- One raw format dictionary, with exactly the keys that
`YouTubeDownloader.fetch_streams` reads via `f.get(...)`.  A missing key is
`none`. -/
structure RawFormat where
  format_id : Option String
  ext : Option String
  vcodec : Option String
  acodec : Option String
  resolution : Option String
  height : Option Nat
  fps : Option Nat
  abr : Option Nat
  filesize : Option Nat
  filesize_approx : Option Nat
  deriving DecidableEq, Repr

/-- Python truthiness of an optional string: `None` and `""` are falsy. -/
def truthyStr : Option String → Bool
  | none => false
  | some s => decide (s ≠ "")

/-- Python truthiness of an optional number: `None` and `0` are falsy. -/
def truthyNat : Option Nat → Bool
  | none => false
  | some n => decide (n ≠ 0)

/-- Python `a or b` on optional numbers: yields `a` when `a` is truthy,
otherwise `b` (so `0 or x` is `x`). -/
def pyOr (a b : Option Nat) : Option Nat :=
  match a with
  | some n => if n ≠ 0 then some n else b
  | none => b

/-- Decimal digit character; callers only pass values below 10. -/
def digitChar : Nat → Char
  | 0 => '0'
  | 1 => '1'
  | 2 => '2'
  | 3 => '3'
  | 4 => '4'
  | 5 => '5'
  | 6 => '6'
  | 7 => '7'
  | 8 => '8'
  | 9 => '9'
  | _ => '0'

/-- Fuel-driven decimal digit expansion, most significant digit first
(the fuel is structural so that concrete values reduce by `rfl`). -/
def natDigitsCore : Nat → Nat → List Char → List Char
  | 0, _, acc => acc
  | fuel + 1, n, acc =>
    let d := digitChar (n % 10)
    if n < 10 then d :: acc else natDigitsCore fuel (n / 10) (d :: acc)

/-- Decimal representation of a natural number, modelling Python
`f"{n}"` / `str(n)`. -/
def natToString (n : Nat) : String :=
  String.mk (natDigitsCore (n + 1) n [])

/-- Resolution derivation inside `fetch_streams`:
`res = f.get('resolution'); if not res and f.get('height'): res = f"{h}p"`. -/
def deriveRes (f : RawFormat) : Option String :=
  if !truthyStr f.resolution && truthyNat f.height then
    some (natToString (f.height.getD 0) ++ "p")
  else
    f.resolution

/-- `str(f.get('abr')) if f.get('abr') else None` (bitrates modelled as
naturals; `0` is falsy). -/
def deriveAbr (f : RawFormat) : Option String :=
  match f.abr with
  | some n => if n ≠ 0 then some (natToString n) else none
  | none => none

/-- `f.get('vcodec') != 'none' or f.get('acodec') != 'none'` (a missing key
compares unequal to the string "none", hence is kept). -/
def keepFormat (f : RawFormat) : Bool :=
  decide (f.vcodec ≠ some "none") || decide (f.acodec ≠ some "none")

/-- Construction of one `StreamOption` from a kept raw format. -/
def toOption (f : RawFormat) : StreamOption :=
  { itag := f.format_id.getD ""
    mime_type := f.ext.getD ""
    resolution := deriveRes f
    fps := f.fps
    abr := deriveAbr f
    filesize := pyOr f.filesize f.filesize_approx }

/-- The filter-and-map loop of `fetch_streams` that builds `options`. -/
def mapStep (raws : List RawFormat) : List StreamOption :=
  (raws.filter keepFormat).map toOption

/-- De-duplication key `(opt.resolution, opt.mime_type)`. -/
def dedupKey (o : StreamOption) : Option String × String :=
  (o.resolution, o.mime_type)

/-- Numeric value of an optional size (only consulted when truthy). -/
def sizeVal (s : Option Nat) : Nat := s.getD 0

/-- The dict-overwrite condition of `fetch_streams`:
`opt.filesize and (not old.filesize or opt.filesize > old.filesize)`. -/
def shouldReplace (old new : StreamOption) : Bool :=
  truthyNat new.filesize &&
    (!truthyNat old.filesize || decide (sizeVal old.filesize < sizeVal new.filesize))

/-- One `unique_options[key] = opt` step on an insertion-ordered map whose
keys are unique: overwrite the (unique) entry with the same key in place
when `shouldReplace` holds, otherwise append at the end. -/
def dedupInsert : List StreamOption → StreamOption → List StreamOption
  | [], o => [o]
  | x :: xs, o =>
    if dedupKey x = dedupKey o then
      if shouldReplace x o then o :: xs else x :: xs
    else
      x :: dedupInsert xs o

/-- The whole de-duplication loop (`unique_options` dict in insertion
order). -/
def dedup (l : List StreamOption) : List StreamOption :=
  l.foldl dedupInsert []

/-- Longest digit run at the head of the list. -/
def takeDigits : List Char → List Char
  | [] => []
  | c :: cs => if c.isDigit then c :: takeDigits cs else []

/-- First maximal run of digits, as matched by `re.search(r"(\d+)", s)`. -/
def firstDigitRun : List Char → Option (List Char)
  | [] => none
  | c :: cs => if c.isDigit then some (c :: takeDigits cs) else firstDigitRun cs

/-- Decimal value of a digit string, as computed by Python `int(...)`. -/
def digitsVal (cs : List Char) : Nat :=
  cs.foldl (fun a c => 10 * a + (c.toNat - 48)) 0

/-- `YouTubeDownloader._resolution_index` (leading underscore dropped):
`0` for a falsy value, otherwise the integer value of the first digit run,
`0` when the string has no digit. -/
def resolution_index (res : Option String) : Nat :=
  match res with
  | none => 0
  | some s =>
    if s = "" then 0
    else
      match firstDigitRun s.data with
      | none => 0
      | some ds => digitsVal ds

/-- Sort key of one option (`self._resolution_index(o.resolution)`). -/
def resIdx (o : StreamOption) : Nat := resolution_index o.resolution

/-- The descending order used by `result.sort(key=..., reverse=True)`:
`a` may come before `b` iff `a`'s key is at least `b`'s. -/
def streamGE (a b : StreamOption) : Prop := resIdx b ≤ resIdx a

instance : DecidableRel streamGE :=
  fun a b => inferInstanceAs (Decidable (resIdx b ≤ resIdx a))

instance : IsTotal StreamOption streamGE :=
  ⟨fun a b => Nat.le_total (resIdx b) (resIdx a)⟩

instance : IsTrans StreamOption streamGE :=
  ⟨fun _ _ _ hab hbc => Nat.le_trans hbc hab⟩

/-- The stable descending sort of `fetch_streams` (Python `list.sort` is
stable and `reverse=True` preserves the order of equal keys; stable
insertion sort with a reflexive total order has identical behaviour). -/
def sortStreams (l : List StreamOption) : List StreamOption :=
  List.insertionSort streamGE l

/-- The pure normalization pipeline of `YouTubeDownloader.fetch_streams`,
from the raw format list to the returned catalog. -/
def fetch_streams (raws : List RawFormat) : List StreamOption :=
  sortStreams (dedup (mapStep raws))

/-- ASCII lower-casing of one character, modelling Python `str.lower()`
on the ASCII range. -/
def lowerChar (c : Char) : Char :=
  if 65 ≤ c.toNat ∧ c.toNat ≤ 90 then Char.ofNat (c.toNat + 32) else c

/-- `str.lower()` (character-wise). -/
def strToLower (s : String) : String :=
  String.mk (s.data.map lowerChar)

/-- The loop test of `select_stream_for_resolution`:
`s.resolution and s.resolution.lower() == t` (an empty resolution string is
falsy and never matches). -/
def streamMatches (t : String) (s : StreamOption) : Bool :=
  match s.resolution with
  | none => false
  | some r => decide (r ≠ "") && decide (strToLower r = t)

/-- `YouTubeDownloader.select_stream_for_resolution`: first entry whose
(truthy) resolution, lowercased, equals the lowercased target, otherwise
the first entry of the catalog, otherwise `none`. -/
def select_stream_for_resolution (streams : List StreamOption) (target : String) :
    Option StreamOption :=
  let t := strToLower target
  match streams.find? (streamMatches t) with
  | some s => some s
  | none => streams.head?

/-- The exact-match pass exactly as the spec words it (no truthiness
restriction): first entry whose resolution, lowercased, equals the
lowercased target.  Stated from the spec for comparison with
`select_stream_for_resolution`. -/
def specExactMatch (streams : List StreamOption) (target : String) :
    Option StreamOption :=
  streams.find? fun s =>
    match s.resolution with
    | none => false
    | some r => decide (strToLower r = strToLower target)

/-- Modelled from the spec: the fallback pass of section 4.2, which is not
implemented by `select_stream_for_resolution` in the source.  Parse the
numeric portion of the target label (first run of digits, `0` if none),
keep only entries with a known resolution, sort by numeric resolution
descending, return the first candidate whose numeric resolution is at
least the target's numeric value. -/
def specFallback (streams : List StreamOption) (target : String) :
    Option StreamOption :=
  let tn := resolution_index (some target)
  (List.insertionSort streamGE (streams.filter fun s => s.resolution.isSome)).find?
    fun s => decide (tn ≤ resIdx s)

/-- Modelled from the spec: numeric parse of an audio bitrate value;
a missing, empty or non-numeric string fails to parse. -/
def parseBitrate : Option String → Option Nat
  | none => none
  | some s =>
    if decide (s ≠ "") && s.data.all Char.isDigit then some (digitsVal s.data)
    else none

/-- Rank comparison for audio candidates: an unparsable bitrate (`none`)
ranks strictly below every parsed one. -/
def rankLT : Option Nat → Option Nat → Bool
  | none, none => false
  | none, some _ => true
  | some _, none => false
  | some x, some y => decide (x < y)

/-- Parsed bitrate rank of one catalog entry. -/
def audioRank (o : StreamOption) : Option Nat := parseBitrate o.abr

/-- Keep the better-ranked of the current best and the next candidate
(the earlier one wins ties). -/
def pickBetter (best : Option StreamOption) (o : StreamOption) : Option StreamOption :=
  match best with
  | none => some o
  | some b => if rankLT (audioRank b) (audioRank o) then some o else some b

/-- Modelled from the spec: the audio-only selection policy of section 4.3.
The repository's `download_audio_only` delegates the choice to the external
download library through the format string `bestaudio/best`, so the policy
itself is no code under src/; following the spec's words it picks, among
the catalog entries with no video payload (no resolution), the one with
the numerically highest parsed bitrate. -/
def selectAudioStream (catalog : List StreamOption) : Option StreamOption :=
  (catalog.filter fun o => o.resolution.isNone).foldl pickBetter none

/-- Python dict assignment `d[k] = v` on an insertion-ordered association
list: overwrite the first (and, for a dict, only) binding of `k` keeping
its position, else append. -/
def mapSet {V : Type} : List (String × V) → String → V → List (String × V)
  | [], k, v => [(k, v)]
  | (k₁, v₁) :: rest, k, v =>
    if k₁ = k then (k, v) :: rest else (k₁, v₁) :: mapSet rest k v

/-- `dict.get(key, default)`. -/
def cacheGet {V : Type} : List (String × V) → String → V → V
  | [], _, dflt => dflt
  | (k₁, v₁) :: rest, k, dflt => if k₁ = k then v₁ else cacheGet rest k dflt

/-- `Cache._load`: when the file exists, a successful read installs its
contents and any failure installs the empty object; when the file is
missing the cache starts empty. -/
def cacheLoad {V : Type} (fileFound : Bool)
    (r : Except String (List (String × V))) : List (String × V) :=
  if fileFound then
    match r with
    | Except.ok d => d
    | Except.error _ => []
  else []

/-- `Cache._save`: the write outcome is swallowed either way. -/
def cacheSave (w : Except String Unit) : Unit :=
  match w with
  | Except.ok u => u
  | Except.error _ => ()

/-- `Cache.set`: update the in-memory map, then attempt the best-effort
save whose outcome is swallowed by `cacheSave`. -/
def cacheSet {V : Type} (data : List (String × V)) (k : String) (v : V)
    (w : Except String Unit) : List (String × V) :=
  match cacheSave w with
  | () => mapSet data k v

/-- The regular expression of the spec invariant: one or more digits
followed by a final letter p (the whole string). -/
def matchesResP (s : String) : Bool :=
  !s.data.dropLast.isEmpty && s.data.dropLast.all Char.isDigit &&
    s.data.getLast? == some 'p'

/- Concrete fixtures used by counterexamples and witnesses. -/

/-- A 1080p mp4 video option. -/
def vid1080 : StreamOption := ⟨"1", "mp4", some "1080p", none, none, none⟩

/-- An option whose resolution is the empty string (present but falsy). -/
def vidEmpty : StreamOption := ⟨"2", "mp4", some "", none, none, none⟩

/-- An audio-only option (no resolution). -/
def audioOpt : StreamOption := ⟨"9", "m4a", none, none, some "128", none⟩

/-- The spec's exact-match predicate restricted to nonempty resolutions
(the restriction the code's truthiness check imposes). -/
def exactMatchesTarget (target : String) (s : StreamOption) : Prop :=
  ∃ r, s.resolution = some r ∧ r ≠ "" ∧ strToLower r = strToLower target

theorem streamMatches_iff (target : String) (s : StreamOption) :
    streamMatches (strToLower target) s = true ↔ exactMatchesTarget target s := by
  cases h : s.resolution with
  | none => simp [streamMatches, h, exactMatchesTarget]
  | some r => simp [streamMatches, h, exactMatchesTarget]

theorem streamMatches_imp_specMatch (target : String) (s : StreamOption)
    (h : streamMatches (strToLower target) s = true) :
    (match s.resolution with
      | none => false
      | some r => decide (strToLower r = strToLower target)) = true := by
  cases hr : s.resolution with
  | none => simp [streamMatches, hr] at h
  | some r => simp [streamMatches, hr] at h ⊢; exact h.2

theorem select_of_no_exact_aux (streams : List StreamOption) (target : String)
    (h : specExactMatch streams target = none) :
    select_stream_for_resolution streams target = streams.head? := by
  have hall := List.find?_eq_none.mp h
  have hfind : streams.find? (streamMatches (strToLower target)) = none := by
    apply List.find?_eq_none.mpr
    intro s hs hmatch
    exact hall s hs (streamMatches_imp_specMatch target s hmatch)
  simp [select_stream_for_resolution, hfind]

/-- Claim C1 counterexample: with catalog `[vid1080, vidEmpty]` and target
`""`, the entry `vidEmpty` has a (present) resolution whose lowercasing
equals the lowercased target, yet the function returns `vid1080` instead of
the first such entry, because an empty resolution string is falsy in the
code's truthiness test. -/
theorem select_exact_cex :
    specExactMatch [vid1080, vidEmpty] "" = some vidEmpty ∧
    select_stream_for_resolution [vid1080, vidEmpty] "" = some vid1080 ∧
    vid1080 ≠ vidEmpty := by decide

/-- Claim C1 (amended): if some entry's nonempty resolution, lowercased,
equals the lowercased target label, then `select_stream_for_resolution`
returns the first such entry in the catalog's existing order. -/
theorem select_exact_match_first (streams : List StreamOption) (target : String)
    (hex : ∃ s ∈ streams, exactMatchesTarget target s) :
    ∃ pre post chosen, streams = pre ++ chosen :: post ∧
      exactMatchesTarget target chosen ∧
      (∀ x ∈ pre, ¬ exactMatchesTarget target x) ∧
      select_stream_for_resolution streams target = some chosen := by
  obtain ⟨s, hs, hm⟩ := hex
  have hmb : streamMatches (strToLower target) s = true :=
    (streamMatches_iff target s).mpr hm
  cases hfind : streams.find? (streamMatches (strToLower target)) with
  | none => exact absurd hmb (List.find?_eq_none.mp hfind s hs)
  | some chosen =>
    obtain ⟨hc, pre, post, heq, hpre⟩ := List.find?_eq_some.mp hfind
    refine ⟨pre, post, chosen, heq, (streamMatches_iff target chosen).mp hc, ?_, ?_⟩
    · intro x hx hmx
      have hb := hpre x hx
      rw [(streamMatches_iff target x).mpr hmx] at hb
      simp at hb
    · simp [select_stream_for_resolution, hfind]

/-- Witness for the amended C1 at a concrete input. -/
theorem select_exact_match_first_witness :
    select_stream_for_resolution [vid1080] "1080p" = some vid1080 := by
  have hex : ∃ s ∈ [vid1080], exactMatchesTarget "1080p" s :=
    ⟨vid1080, by simp, "1080p", rfl, by decide, rfl⟩
  obtain ⟨pre, post, chosen, heq, _, _, hsel⟩ :=
    select_exact_match_first [vid1080] "1080p" hex
  have hchosen : chosen ∈ [vid1080] := by
    rw [heq]; exact List.mem_append_right _ (List.mem_cons_self _ _)
  have hch : chosen = vid1080 := by simpa using hchosen
  rw [hch] at hsel
  exact hsel

/-- Claim C2 counterexample: with catalog `[audioOpt, vid1080]` and target
`"720p"` there is no exact match; the fallback the claim describes selects
`vid1080` (the only entry with a known resolution, and `1080 ≥ 720`), but
the function returns the first catalog entry `audioOpt`, which has no
resolution at all: no numeric fallback pass exists in the code. -/
theorem select_fallback_cex :
    specExactMatch [audioOpt, vid1080] "720p" = none ∧
    specFallback [audioOpt, vid1080] "720p" = some vid1080 ∧
    select_stream_for_resolution [audioOpt, vid1080] "720p" = some audioOpt ∧
    audioOpt ≠ vid1080 := by decide

/-- Claim C2 (amended): when no exact resolution match exists,
`select_stream_for_resolution` performs no numeric fallback at all: it
returns the first entry of the catalog (absence when the catalog is
empty), regardless of any numeric comparison with the target. -/
theorem select_no_exact_returns_head (streams : List StreamOption) (target : String)
    (h : specExactMatch streams target = none) :
    select_stream_for_resolution streams target = streams.head? :=
  select_of_no_exact_aux streams target h

/-- Witness for the amended C2 at a concrete input. -/
theorem select_no_exact_returns_head_witness :
    select_stream_for_resolution [audioOpt, vid1080] "999p" = some audioOpt := by
  have h := select_no_exact_returns_head [audioOpt, vid1080] "999p" (by decide)
  exact h

/-- Claim C3: on an empty catalog the selector returns `none` (a normal
outcome, the function is total); on any catalog on which neither the
exact-match pass nor the (spec-modelled) fallback pass produces a result it
returns the first entry of the catalog. -/
theorem select_empty_and_last_resort (streams : List StreamOption) (target : String) :
    select_stream_for_resolution [] target = none ∧
    (specExactMatch streams target = none → specFallback streams target = none →
      select_stream_for_resolution streams target = streams.head?) :=
  ⟨rfl, fun h1 _ => select_of_no_exact_aux streams target h1⟩

/-- Witness for C3 at concrete inputs: the empty catalog, and a catalog
where `"4000p"` matches nothing and exceeds every resolution. -/
theorem select_empty_and_last_resort_witness :
    select_stream_for_resolution [] "4000p" = none ∧
    select_stream_for_resolution [vid1080] "4000p" = some vid1080 := by
  refine ⟨(select_empty_and_last_resort [] "4000p").1, ?_⟩
  have h := (select_empty_and_last_resort [vid1080] "4000p").2 (by decide) (by decide)
  exact h

theorem firstDigitRun_eq_none_of_no_digits :
    ∀ cs : List Char, cs.all (fun c => !c.isDigit) = true → firstDigitRun cs = none := by
  intro cs h
  induction cs with
  | nil => rfl
  | cons c cs ih =>
    simp [List.all_cons] at h
    simp [firstDigitRun, h.1]
    exact ih (by simpa using h.2)

/-- Claim C7: the numeric ranking function `resolution_index` is a total
function into the naturals (so it can never raise during sorting or
comparison); it returns 0 on the absent value and on any string containing
no digit. -/
theorem resolution_index_no_digits :
    resolution_index none = 0 ∧
    ∀ s : String, s.data.all (fun c => !c.isDigit) = true →
      resolution_index (some s) = 0 := by
  refine ⟨rfl, fun s h => ?_⟩
  by_cases hs : s = ""
  · simp [resolution_index, hs]
  · simp [resolution_index, hs, firstDigitRun_eq_none_of_no_digits s.data h]

/-- Witness for C7 at a concrete digit-free string. -/
theorem resolution_index_no_digits_witness :
    resolution_index (some "nodigits") = 0 :=
  resolution_index_no_digits.2 "nodigits" (by decide)

/-- Claim C9: cache file failures never reach the caller: a read failure on
an existing file installs the empty map (so a subsequent get yields the
default), and the result of `set` is the same whether the best-effort save
succeeds or fails; all operations are total, so no error propagates. -/
theorem cache_io_failures_swallowed (V : Type) (e : String)
    (data : List (String × V)) (k : String) (v : V) (dflt : V) :
    cacheLoad true (Except.error e : Except String (List (String × V))) = [] ∧
    cacheSet data k v (Except.error e) = cacheSet data k v (Except.ok ()) ∧
    cacheGet (cacheLoad true (Except.error e : Except String (List (String × V)))) k dflt
      = dflt :=
  ⟨rfl, rfl, rfl⟩

theorem cacheGet_mapSet {V : Type} (data : List (String × V)) (k : String)
    (v : V) (dflt : V) : cacheGet (mapSet data k v) k dflt = v := by
  induction data with
  | nil => simp [mapSet, cacheGet]
  | cons p rest ih =>
    obtain ⟨k₁, v₁⟩ := p
    by_cases h : k₁ = k
    · simp [mapSet, h, cacheGet]
    · simp [mapSet, h, cacheGet, ih]

/-- Claim C10: `get k` immediately after `set k v` returns `v` whatever the
outcome of the underlying disk write, because `set` updates the in-memory
map before the best-effort save. -/
theorem cache_get_after_set (V : Type) (data : List (String × V)) (k : String)
    (v : V) (dflt : V) (w : Except String Unit) :
    cacheGet (cacheSet data k v w) k dflt = v := by
  cases w with
  | ok u => cases u; exact cacheGet_mapSet data k v dflt
  | error e => exact cacheGet_mapSet data k v dflt

/- Stability of the descending insertion sort: filtering the sorted output
at any fixed key value gives the same subsequence as filtering the input. -/

theorem filter_orderedInsert_pos (a : StreamOption) (l : List StreamOption)
    (k : Nat) (ha : resIdx a = k) :
    (List.orderedInsert streamGE a l).filter (fun o => decide (resIdx o = k)) =
      a :: l.filter (fun o => decide (resIdx o = k)) := by
  induction l with
  | nil => simp [List.orderedInsert, List.filter_cons, ha]
  | cons b l ih =>
    by_cases hr : streamGE a b
    · simp [List.orderedInsert, hr, List.filter_cons, ha]
    · have hb : resIdx b ≠ k := fun hbk => hr (by rw [streamGE, hbk, ha])
      simp [List.orderedInsert, hr, List.filter_cons, hb, ih]

theorem filter_orderedInsert_neg (a : StreamOption) (l : List StreamOption)
    (k : Nat) (ha : resIdx a ≠ k) :
    (List.orderedInsert streamGE a l).filter (fun o => decide (resIdx o = k)) =
      l.filter (fun o => decide (resIdx o = k)) := by
  induction l with
  | nil => simp [List.orderedInsert, List.filter_cons, ha]
  | cons b l ih =>
    by_cases hr : streamGE a b
    · simp [List.orderedInsert, hr, List.filter_cons, ha]
    · simp [List.orderedInsert, hr, List.filter_cons, ih]

theorem filter_insertionSort (k : Nat) (l : List StreamOption) :
    (List.insertionSort streamGE l).filter (fun o => decide (resIdx o = k)) =
      l.filter (fun o => decide (resIdx o = k)) := by
  induction l with
  | nil => rfl
  | cons a l ih =>
    by_cases ha : resIdx a = k
    · simp only [List.insertionSort]
      rw [filter_orderedInsert_pos a _ k ha, ih]
      simp [List.filter_cons, ha]
    · simp only [List.insertionSort]
      rw [filter_orderedInsert_neg a _ k ha, ih]
      simp [List.filter_cons, ha]

/-- Claim C5: the catalog returned by `fetch_streams` is sorted by numeric
resolution descending (`streamGE` holds pairwise, so resolution values are
non-increasing across the sequence), an absent resolution sorts with
numeric value 0, and the sort is stable: for every key value, the entries
carrying that value appear in the same order as in the de-duplicated
pre-sort sequence. -/
theorem fetch_streams_sorted_and_stable (raws : List RawFormat) :
    List.Sorted streamGE (fetch_streams raws) ∧
    (∀ k : Nat, (fetch_streams raws).filter (fun o => decide (resIdx o = k)) =
      (dedup (mapStep raws)).filter (fun o => decide (resIdx o = k))) ∧
    resolution_index none = 0 :=
  ⟨List.sorted_insertionSort streamGE (dedup (mapStep raws)),
   fun k => filter_insertionSort k (dedup (mapStep raws)), rfl⟩

/- Membership lemmas for the de-duplication fold. -/

theorem dedupInsert_subset (acc : List StreamOption) (o x : StreamOption)
    (hx : x ∈ dedupInsert acc o) : x ∈ acc ∨ x = o := by
  induction acc with
  | nil => simpa [dedupInsert] using hx
  | cons a as ih =>
    by_cases hk : dedupKey a = dedupKey o
    · by_cases hr : shouldReplace a o
      · simp only [dedupInsert, if_pos hk, if_pos hr] at hx
        rcases List.mem_cons.mp hx with h | h
        · exact Or.inr h
        · exact Or.inl (List.mem_cons_of_mem _ h)
      · simp only [dedupInsert, if_pos hk, if_neg hr] at hx
        exact Or.inl hx
    · simp only [dedupInsert, if_neg hk] at hx
      rcases List.mem_cons.mp hx with h | h
      · exact Or.inl (by simp [h])
      · rcases ih h with h2 | h2
        · exact Or.inl (List.mem_cons_of_mem _ h2)
        · exact Or.inr h2

theorem foldl_dedupInsert_subset :
    ∀ (l acc : List StreamOption) (x : StreamOption),
      x ∈ l.foldl dedupInsert acc → x ∈ acc ∨ x ∈ l := by
  intro l
  induction l with
  | nil => intro acc x hx; exact Or.inl hx
  | cons o rest ih =>
    intro acc x hx
    rcases ih (dedupInsert acc o) x hx with h | h
    · rcases dedupInsert_subset acc o x h with h2 | h2
      · exact Or.inl h2
      · exact Or.inr (by simp [h2])
    · exact Or.inr (List.mem_cons_of_mem _ h)

theorem dedup_subset (l : List StreamOption) (x : StreamOption)
    (hx : x ∈ dedup l) : x ∈ l :=
  (foldl_dedupInsert_subset l [] x hx).resolve_left (by simp)

/- Decimal strings synthesized from a height match the pattern. -/

theorem digitChar_isDigit : ∀ n : Nat, (digitChar n).isDigit = true
  | 0 => rfl
  | 1 => rfl
  | 2 => rfl
  | 3 => rfl
  | 4 => rfl
  | 5 => rfl
  | 6 => rfl
  | 7 => rfl
  | 8 => rfl
  | 9 => rfl
  | _ + 10 => rfl

theorem natDigitsCore_shape (fuel : Nat) :
    ∀ (n : Nat) (acc : List Char),
      ∃ pre : List Char, natDigitsCore fuel n acc = pre ++ acc ∧
        pre.all Char.isDigit = true ∧ (0 < fuel → pre ≠ []) := by
  induction fuel with
  | zero => intro n acc; exact ⟨[], rfl, rfl, by omega⟩
  | succ fuel ih =>
    intro n acc
    by_cases h : n < 10
    · refine ⟨[digitChar (n % 10)], ?_, ?_, fun _ => by simp⟩
      · simp [natDigitsCore, h]
      · simp [digitChar_isDigit]
    · obtain ⟨pre, hpre, hdig, _⟩ := ih (n / 10) (digitChar (n % 10) :: acc)
      refine ⟨pre ++ [digitChar (n % 10)], ?_, ?_, fun _ => by simp⟩
      · simp [natDigitsCore, h, hpre]
      · simp [List.all_append, hdig, digitChar_isDigit]

theorem natToString_matchesResP (n : Nat) :
    matchesResP (natToString n ++ "p") = true := by
  obtain ⟨pre, hpre, hdig, hne⟩ := natDigitsCore_shape (n + 1) n []
  have hne' : pre ≠ [] := hne (Nat.succ_pos n)
  have hdata : (natToString n ++ "p").data = pre ++ ['p'] := by
    simp only [String.data_append, natToString]
    rw [hpre]
    simp
  simp only [matchesResP, hdata, List.dropLast_concat, List.getLast?_concat]
  simp [hdig, List.isEmpty_iff, hne']

/-- A raw record declaring the resolution string `"1280x720"` (the form the
extraction library actually reports), which the code passes through
unchanged. -/
def rDeclared : RawFormat :=
  ⟨some "1", some "mp4", some "avc1", some "none", some "1280x720", some 720,
    none, none, none, none⟩

/-- A raw record with no declared resolution but a pixel height, for which
the code synthesizes `"720p"`. -/
def rHeight : RawFormat :=
  ⟨some "3", some "mp4", some "avc1", some "none", none, some 720,
    none, none, none, none⟩

/-- Claim C6 counterexample: a raw record whose declared resolution string
is `"1280x720"` produces a catalog entry with that exact resolution, which
does not match the pattern of one or more digits followed by `p`; the code
only synthesizes `"<h>p"` when the declared string is absent or empty, and
never rewrites a declared string. -/
theorem fetch_resolution_pattern_cex :
    (fetch_streams [rDeclared]).map (fun o => o.resolution) = [some "1280x720"] ∧
    matchesResP "1280x720" = false := by decide

/-- Claim C6 (amended): every present resolution of a catalog entry
produced by `fetch_streams` either matches the pattern of one or more
digits followed by `p` (the synthesized `"<height>p"` case) or is some raw
record's declared resolution string passed through verbatim (which need
not match the pattern). -/
theorem fetch_resolution_shape (raws : List RawFormat) (o : StreamOption)
    (ho : o ∈ fetch_streams raws) (s : String) (hs : o.resolution = some s) :
    matchesResP s = true ∨ ∃ f ∈ raws, f.resolution = some s := by
  have h1 : o ∈ dedup (mapStep raws) :=
    (List.perm_insertionSort streamGE (dedup (mapStep raws))).mem_iff.mp ho
  have h2 : o ∈ mapStep raws := dedup_subset _ _ h1
  obtain ⟨f, hfmem, hfo⟩ := List.mem_map.mp h2
  have hf : f ∈ raws := (List.mem_filter.mp hfmem).1
  have hres : deriveRes f = some s := by rw [← hs, ← hfo]; rfl
  by_cases hcond : (!truthyStr f.resolution && truthyNat f.height) = true
  · rw [deriveRes, if_pos hcond] at hres
    left
    rw [← Option.some.inj hres]
    exact natToString_matchesResP _
  · rw [deriveRes, if_neg hcond] at hres
    exact Or.inr ⟨f, hf, hres⟩

/-- Witness for the amended C6: the height-synthesized entry of
`fetch_streams [rHeight]` satisfies the disjunction. -/
theorem fetch_resolution_shape_witness :
    matchesResP "720p" = true ∨ ∃ f ∈ [rHeight], f.resolution = some "720p" :=
  fetch_resolution_shape [rHeight] ⟨"3", "mp4", some "720p", none, none, none⟩
    (by decide) "720p" rfl

/- Properties of the audio bitrate ranking (spec-modelled policy). -/

theorem rankLT_irrefl (a : Option Nat) : rankLT a a = false := by
  cases a <;> simp [rankLT]

theorem rankLT_asymm {a b : Option Nat} (h : rankLT a b = true) :
    rankLT b a = false := by
  cases a <;> cases b <;> simp_all [rankLT]
  omega

theorem rankLT_false_trans {a b c : Option Nat} (h1 : rankLT a b = false)
    (h2 : rankLT b c = false) : rankLT a c = false := by
  cases a <;> cases b <;> cases c <;> simp_all [rankLT]
  omega

theorem pickBetter_isSome (b : Option StreamOption) (o : StreamOption) :
    ∃ w, pickBetter b o = some w := by
  cases b with
  | none => exact ⟨o, rfl⟩
  | some x =>
    by_cases h : rankLT (audioRank x) (audioRank o) = true
    · exact ⟨o, by simp [pickBetter, h]⟩
    · exact ⟨x, by simp [pickBetter, h]⟩

theorem pickBetter_cases (b : Option StreamOption) (o : StreamOption)
    (s : StreamOption) (h : pickBetter b o = some s) : s = o ∨ b = some s := by
  cases b with
  | none => exact Or.inl (Option.some.inj h).symm
  | some x =>
    by_cases hr : rankLT (audioRank x) (audioRank o) = true
    · simp only [pickBetter, if_pos hr] at h
      exact Or.inl (Option.some.inj h).symm
    · simp only [pickBetter, if_neg hr] at h
      exact Or.inr (by rw [Option.some.inj h])

theorem pickBetter_rank_o (b : Option StreamOption) (o s : StreamOption)
    (h : pickBetter b o = some s) :
    rankLT (audioRank s) (audioRank o) = false := by
  cases b with
  | none =>
    rw [← Option.some.inj h]
    exact rankLT_irrefl _
  | some x =>
    by_cases hr : rankLT (audioRank x) (audioRank o) = true
    · simp only [pickBetter, if_pos hr] at h
      rw [← Option.some.inj h]
      exact rankLT_irrefl _
    · simp only [pickBetter, if_neg hr] at h
      rw [← Option.some.inj h]
      exact Bool.not_eq_true _ ▸ (Bool.eq_false_iff.mpr hr)

theorem pickBetter_rank_b (b : Option StreamOption) (o s x : StreamOption)
    (h : pickBetter b o = some s) (hb : b = some x) :
    rankLT (audioRank s) (audioRank x) = false := by
  subst hb
  by_cases hr : rankLT (audioRank x) (audioRank o) = true
  · simp only [pickBetter, if_pos hr] at h
    rw [← Option.some.inj h]
    exact rankLT_asymm hr
  · simp only [pickBetter, if_neg hr] at h
    rw [← Option.some.inj h]
    exact rankLT_irrefl _

theorem foldl_pickBetter_spec :
    ∀ (l : List StreamOption) (b : Option StreamOption) (s : StreamOption),
      l.foldl pickBetter b = some s →
      (b = some s ∨ s ∈ l) ∧
      (∀ c ∈ l, rankLT (audioRank s) (audioRank c) = false) ∧
      (∀ x, b = some x → rankLT (audioRank s) (audioRank x) = false) := by
  intro l
  induction l with
  | nil =>
    intro b s h
    have hb : b = some s := h
    refine ⟨Or.inl hb, by simp, fun x hx => ?_⟩
    have hxs : x = s := by rw [hb] at hx; exact (Option.some.inj hx).symm
    rw [hxs]; exact rankLT_irrefl _
  | cons o rest ih =>
    intro b s h
    obtain ⟨hmem, hall, hinit⟩ := ih (pickBetter b o) s h
    obtain ⟨w, hw⟩ := pickBetter_isSome b o
    have hsw : rankLT (audioRank s) (audioRank w) = false := hinit w hw
    have hwo : rankLT (audioRank w) (audioRank o) = false := pickBetter_rank_o b o w hw
    refine ⟨?_, ?_, ?_⟩
    · rcases hmem with hm | hm
      · rcases pickBetter_cases b o s hm with h2 | h2
        · exact Or.inr (by simp [h2])
        · exact Or.inl h2
      · exact Or.inr (List.mem_cons_of_mem _ hm)
    · intro c hc
      rcases List.mem_cons.mp hc with h2 | h2
      · rw [h2]; exact rankLT_false_trans hsw hwo
      · exact hall c h2
    · intro x hx
      have hwx : rankLT (audioRank w) (audioRank x) = false :=
        pickBetter_rank_b b o w x hw hx
      exact rankLT_false_trans hsw hwx

/-- Claim C8 (spec-modelled policy): when audio-only output is requested,
the selected entry is an audio-only catalog entry (no video payload) whose
parsed bitrate rank is maximal among all audio-only entries; whenever some
audio-only candidate has a parsable bitrate, the winner's bitrate is
parsable too, so an unparsable candidate never wins, and the comparison is
a total function, so it never crashes. -/
theorem audio_selection_best (catalog : List StreamOption) (s : StreamOption)
    (h : selectAudioStream catalog = some s) :
    (s ∈ catalog ∧ s.resolution = none) ∧
    (∀ c ∈ catalog, c.resolution = none →
      rankLT (audioRank s) (audioRank c) = false) ∧
    ((∃ c ∈ catalog, c.resolution = none ∧ (audioRank c).isSome = true) →
      (audioRank s).isSome = true) := by
  obtain ⟨hmem, hall, _⟩ := foldl_pickBetter_spec _ none s h
  have hmem' : s ∈ catalog.filter (fun o => o.resolution.isNone) :=
    hmem.resolve_left (by simp)
  have hsmem := List.mem_filter.mp hmem'
  refine ⟨⟨hsmem.1, by simpa using hsmem.2⟩, fun c hc hcres => ?_, fun hex => ?_⟩
  · exact hall c (List.mem_filter.mpr ⟨hc, by simp [hcres]⟩)
  · obtain ⟨c, hc, hcres, hcs⟩ := hex
    have h1 := hall c (List.mem_filter.mpr ⟨hc, by simp [hcres]⟩)
    cases hrs : audioRank s with
    | some v => rfl
    | none =>
      cases hrc : audioRank c with
      | none => rw [hrc] at hcs; simp at hcs
      | some v => rw [hrs, hrc] at h1; simp [rankLT] at h1

/-- An audio-only option with a lower bitrate than `audioOpt`. -/
def audioLow : StreamOption := ⟨"8", "m4a", none, none, some "96", none⟩

/-- Witness for C8 at a concrete catalog: `audioOpt` (bitrate 128) wins
over `audioLow` (bitrate 96), and the video entry is never considered. -/
theorem audio_selection_best_witness :
    (audioOpt ∈ [vid1080, audioLow, audioOpt] ∧ audioOpt.resolution = none) ∧
    (∀ c ∈ [vid1080, audioLow, audioOpt], c.resolution = none →
      rankLT (audioRank audioOpt) (audioRank c) = false) ∧
    ((∃ c ∈ [vid1080, audioLow, audioOpt], c.resolution = none ∧
        (audioRank c).isSome = true) →
      (audioRank audioOpt).isSome = true) :=
  audio_selection_best [vid1080, audioLow, audioOpt] audioOpt (by decide)

/- The de-duplication fold keeps one entry per key, and that entry
dominates (in the truthy-size order) every candidate seen for its key. -/

theorem shouldReplace_iff (x o : StreamOption) :
    shouldReplace x o = true ↔ truthyNat o.filesize = true ∧
      (truthyNat x.filesize = false ∨ sizeVal x.filesize < sizeVal o.filesize) := by
  simp [shouldReplace, Bool.and_eq_true, Bool.or_eq_true, Bool.not_eq_true',
    decide_eq_true_eq]

theorem shouldReplace_self (o : StreamOption) : shouldReplace o o = false := by
  cases h : truthyNat o.filesize
  · simp [shouldReplace, h]
  · simp [shouldReplace, h, Nat.lt_irrefl]

theorem dedupInsert_key_mem (acc : List StreamOption) (o : StreamOption) :
    ∃ x ∈ dedupInsert acc o, dedupKey x = dedupKey o := by
  induction acc with
  | nil => exact ⟨o, by simp [dedupInsert], rfl⟩
  | cons a as ih =>
    by_cases hk : dedupKey a = dedupKey o
    · by_cases hr : shouldReplace a o
      · refine ⟨o, ?_, rfl⟩
        simp only [dedupInsert, if_pos hk, if_pos hr]
        exact List.mem_cons_self _ _
      · refine ⟨a, ?_, hk⟩
        simp only [dedupInsert, if_pos hk, if_neg hr]
        exact List.mem_cons_self _ _
    · obtain ⟨x, hx, hxk⟩ := ih
      refine ⟨x, ?_, hxk⟩
      simp only [dedupInsert, if_neg hk]
      exact List.mem_cons_of_mem _ hx

theorem dedupInsert_key_preserved :
    ∀ (acc : List StreamOption) (o : StreamOption) (k : Option String × String),
      (∃ x ∈ acc, dedupKey x = k) → ∃ x ∈ dedupInsert acc o, dedupKey x = k := by
  intro acc
  induction acc with
  | nil =>
    intro o k h
    obtain ⟨x, hx, _⟩ := h
    cases hx
  | cons a as ih =>
    intro o k h
    obtain ⟨x, hx, hxk⟩ := h
    by_cases hk : dedupKey a = dedupKey o
    · by_cases hr : shouldReplace a o
      · rcases List.mem_cons.mp hx with rfl | hx2
        · refine ⟨o, ?_, hk.symm.trans hxk⟩
          simp only [dedupInsert, if_pos hk, if_pos hr]
          exact List.mem_cons_self _ _
        · refine ⟨x, ?_, hxk⟩
          simp only [dedupInsert, if_pos hk, if_pos hr]
          exact List.mem_cons_of_mem _ hx2
      · refine ⟨x, ?_, hxk⟩
        simp only [dedupInsert, if_pos hk, if_neg hr]
        exact hx
    · rcases List.mem_cons.mp hx with rfl | hx2
      · refine ⟨x, ?_, hxk⟩
        simp only [dedupInsert, if_neg hk]
        exact List.mem_cons_self _ _
      · obtain ⟨z, hz, hzk⟩ := ih o k ⟨x, hx2, hxk⟩
        refine ⟨z, ?_, hzk⟩
        simp only [dedupInsert, if_neg hk]
        exact List.mem_cons_of_mem _ hz

theorem dedupInsert_mem_char (acc : List StreamOption) (o x : StreamOption)
    (hx : x ∈ dedupInsert acc o) :
    x ∈ acc ∨ (x = o ∧ ((∀ y ∈ acc, dedupKey y ≠ dedupKey o) ∨
      ∃ y ∈ acc, dedupKey y = dedupKey o ∧ shouldReplace y o = true)) := by
  induction acc with
  | nil =>
    have hxo : x = o := by simpa [dedupInsert] using hx
    exact Or.inr ⟨hxo, Or.inl (by simp)⟩
  | cons a as ih =>
    by_cases hk : dedupKey a = dedupKey o
    · by_cases hr : shouldReplace a o
      · simp only [dedupInsert, if_pos hk, if_pos hr] at hx
        rcases List.mem_cons.mp hx with h | h
        · exact Or.inr ⟨h, Or.inr ⟨a, List.mem_cons_self a as, hk, hr⟩⟩
        · exact Or.inl (List.mem_cons_of_mem _ h)
      · simp only [dedupInsert, if_pos hk, if_neg hr] at hx
        exact Or.inl hx
    · simp only [dedupInsert, if_neg hk] at hx
      rcases List.mem_cons.mp hx with h | h
      · exact Or.inl (by simp [h])
      · rcases ih h with h2 | ⟨rfl, h3⟩
        · exact Or.inl (List.mem_cons_of_mem _ h2)
        · refine Or.inr ⟨rfl, ?_⟩
          rcases h3 with h4 | ⟨y, hy, hyk, hyr⟩
          · refine Or.inl ?_
            intro y hy
            rcases List.mem_cons.mp hy with rfl | hy2
            · exact hk
            · exact h4 y hy2
          · exact Or.inr ⟨y, List.mem_cons_of_mem _ hy, hyk, hyr⟩

theorem not_mem_dedupInsert_of_replaced :
    ∀ (acc : List StreamOption) (o x : StreamOption),
      acc.Pairwise (fun a b => dedupKey a ≠ dedupKey b) →
      x ∈ acc → dedupKey x = dedupKey o → shouldReplace x o = true →
      x ∉ dedupInsert acc o := by
  intro acc
  induction acc with
  | nil =>
    intro o x _ hx
    cases hx
  | cons a as ih =>
    intro o x hpw hx hxk hxr hmem
    have hpw1 := List.pairwise_cons.mp hpw
    by_cases hk : dedupKey a = dedupKey o
    · by_cases hr : shouldReplace a o
      · simp only [dedupInsert, if_pos hk, if_pos hr] at hmem
        rcases List.mem_cons.mp hx with rfl | hx2
        · rcases List.mem_cons.mp hmem with h3 | h3
          · rw [h3, shouldReplace_self] at hxr
            simp at hxr
          · exact hpw1.1 x h3 rfl
        · exact hpw1.1 x hx2 (hk.trans hxk.symm)
      · simp only [dedupInsert, if_pos hk, if_neg hr] at hmem
        rcases List.mem_cons.mp hx with rfl | hx2
        · exact hr hxr
        · exact hpw1.1 x hx2 (hk.trans hxk.symm)
    · simp only [dedupInsert, if_neg hk] at hmem
      rcases List.mem_cons.mp hx with rfl | hx2
      · exact hk hxk
      · rcases List.mem_cons.mp hmem with h3 | h3
        · exact hpw1.1 x hx2 (by rw [h3])
        · exact ih o x hpw1.2 hx2 hxk hxr h3

theorem dedupInsert_pairwise :
    ∀ (acc : List StreamOption) (o : StreamOption),
      acc.Pairwise (fun a b => dedupKey a ≠ dedupKey b) →
      (dedupInsert acc o).Pairwise (fun a b => dedupKey a ≠ dedupKey b) := by
  intro acc
  induction acc with
  | nil => intro o _; simp [dedupInsert]
  | cons a as ih =>
    intro o hpw
    have hpw1 := List.pairwise_cons.mp hpw
    by_cases hk : dedupKey a = dedupKey o
    · by_cases hr : shouldReplace a o
      · simp only [dedupInsert, if_pos hk, if_pos hr]
        refine List.pairwise_cons.mpr ⟨?_, hpw1.2⟩
        intro b hb
        rw [← hk]
        exact hpw1.1 b hb
      · simp only [dedupInsert, if_pos hk, if_neg hr]
        exact hpw
    · simp only [dedupInsert, if_neg hk]
      refine List.pairwise_cons.mpr ⟨?_, ih o hpw1.2⟩
      intro b hb
      rcases dedupInsert_subset as o b hb with h2 | h2
      · exact hpw1.1 b h2
      · rw [h2]; exact hk

/-- The map `acc` holds an entry with `c`'s key, and that entry's size
dominates `c`'s (a truthy-size candidate is only ever beaten by a truthy,
at-least-as-large size). -/
def DominatesKeyOf (acc : List StreamOption) (c : StreamOption) : Prop :=
  (∃ x ∈ acc, dedupKey x = dedupKey c) ∧
  ∀ x ∈ acc, dedupKey x = dedupKey c → truthyNat c.filesize = true →
    truthyNat x.filesize = true ∧ sizeVal c.filesize ≤ sizeVal x.filesize

theorem dominates_dedupInsert (acc : List StreamOption) (c o : StreamOption)
    (hd : DominatesKeyOf acc c) : DominatesKeyOf (dedupInsert acc o) c := by
  obtain ⟨hex, hdom⟩ := hd
  refine ⟨dedupInsert_key_preserved acc o _ hex, ?_⟩
  intro x hx hkey htr
  rcases dedupInsert_mem_char acc o x hx with hxa | ⟨rfl, hcase⟩
  · exact hdom x hxa hkey htr
  · rcases hcase with hnone | ⟨y, hy, hyk, hyr⟩
    · obtain ⟨z, hz, hzk⟩ := hex
      exact absurd (hzk.trans hkey.symm) (hnone z hz)
    · have hydom := hdom y hy (hyk.trans hkey) htr
      have hyr' := (shouldReplace_iff y x).mp hyr
      rcases hyr'.2 with hyf | hlt
      · rw [hydom.1] at hyf
        simp at hyf
      · exact ⟨hyr'.1, Nat.le_of_lt (Nat.lt_of_le_of_lt hydom.2 hlt)⟩

theorem dominates_self_dedupInsert (acc : List StreamOption) (o : StreamOption)
    (hpw : acc.Pairwise (fun a b => dedupKey a ≠ dedupKey b)) :
    DominatesKeyOf (dedupInsert acc o) o := by
  refine ⟨dedupInsert_key_mem acc o, ?_⟩
  intro x hx hkey htr
  rcases dedupInsert_mem_char acc o x hx with hxa | ⟨rfl, _⟩
  · by_cases hrep : shouldReplace x o = true
    · exact absurd hx (not_mem_dedupInsert_of_replaced acc o x hpw hxa hkey hrep)
    · have h2 : ¬(truthyNat x.filesize = false ∨
          sizeVal x.filesize < sizeVal o.filesize) :=
        fun hc => hrep ((shouldReplace_iff x o).mpr ⟨htr, hc⟩)
      push_neg at h2
      refine ⟨?_, h2.2⟩
      cases hxf : truthyNat x.filesize
      · exact absurd hxf h2.1
      · rfl
  · exact ⟨htr, Nat.le_refl _⟩

theorem foldl_dedup_pairwise :
    ∀ (l acc : List StreamOption),
      acc.Pairwise (fun a b => dedupKey a ≠ dedupKey b) →
      (l.foldl dedupInsert acc).Pairwise (fun a b => dedupKey a ≠ dedupKey b) := by
  intro l
  induction l with
  | nil => intro acc h; exact h
  | cons o rest ih => intro acc h; exact ih _ (dedupInsert_pairwise acc o h)

theorem foldl_dominates_pres :
    ∀ (l acc : List StreamOption) (c : StreamOption),
      DominatesKeyOf acc c → DominatesKeyOf (l.foldl dedupInsert acc) c := by
  intro l
  induction l with
  | nil => intro acc c h; exact h
  | cons o rest ih => intro acc c h; exact ih _ c (dominates_dedupInsert acc c o h)

theorem foldl_dominates_all :
    ∀ (l acc : List StreamOption),
      acc.Pairwise (fun a b => dedupKey a ≠ dedupKey b) →
      ∀ c ∈ l, DominatesKeyOf (l.foldl dedupInsert acc) c := by
  intro l
  induction l with
  | nil =>
    intro acc _ c hc
    cases hc
  | cons o rest ih =>
    intro acc hpw c hc
    rcases List.mem_cons.mp hc with rfl | hc2
    · exact foldl_dominates_pres rest _ c (dominates_self_dedupInsert acc c hpw)
    · exact ih _ (dedupInsert_pairwise acc o hpw) c hc2

/-- A raw record with the same key as `rZeroSize` but no size at all. -/
def rNoSize : RawFormat :=
  ⟨some "1", some "mp4", some "avc1", some "none", some "1080p", none,
    none, none, none, none⟩

/-- A raw record colliding with `rNoSize` whose approximate size is 0, so
its candidate carries the known size `some 0`. -/
def rZeroSize : RawFormat :=
  ⟨some "2", some "mp4", some "avc1", some "none", some "1080p", none,
    none, none, none, some 0⟩

/-- A raw record with a known nonzero size, used as witness input. -/
def rSized : RawFormat :=
  ⟨some "1", some "mp4", some "avc1", some "none", some "1080p", none,
    none, none, some 5, none⟩

/-- Claim C4 counterexample: two colliding candidates, the first with an
unknown size and the second with the known size 0; the known size is falsy
under Python truthiness, so the unknown-size candidate (itag "1") is
retained, contradicting "a candidate with a known size always beats one
with an unknown size". -/
theorem fetch_streams_dedup_cex :
    dedupKey (toOption rNoSize) = dedupKey (toOption rZeroSize) ∧
    (toOption rZeroSize).filesize = some 0 ∧
    (toOption rNoSize).filesize = none ∧
    fetch_streams [rNoSize, rZeroSize] = [toOption rNoSize] := by decide

/-- Claim C4 (amended): the catalog returned by `fetch_streams` holds no
two entries with the same `(resolution, container)` key; every candidate's
key is represented; and the retained entry for a key dominates every
colliding candidate whose size is known and nonzero: the retained size is
then itself known and nonzero and at least as large.  (A known size of 0
is falsy in the code's truthiness test, so it neither displaces an
unknown-size incumbent nor is protected against larger candidates.) -/
theorem fetch_streams_dedup_dominance (raws : List RawFormat) :
    (fetch_streams raws).Pairwise (fun a b => dedupKey a ≠ dedupKey b) ∧
    (∀ c ∈ mapStep raws, ∃ x ∈ fetch_streams raws, dedupKey x = dedupKey c) ∧
    (∀ c ∈ mapStep raws, ∀ x ∈ fetch_streams raws, dedupKey x = dedupKey c →
      truthyNat c.filesize = true →
      truthyNat x.filesize = true ∧ sizeVal c.filesize ≤ sizeVal x.filesize) := by
  have hperm := List.perm_insertionSort streamGE (dedup (mapStep raws))
  have hpw : (dedup (mapStep raws)).Pairwise (fun a b => dedupKey a ≠ dedupKey b) :=
    foldl_dedup_pairwise (mapStep raws) [] List.Pairwise.nil
  have hdom : ∀ c ∈ mapStep raws, DominatesKeyOf (dedup (mapStep raws)) c :=
    foldl_dominates_all (mapStep raws) [] List.Pairwise.nil
  refine ⟨?_, fun c hc => ?_, fun c hc x hx hk ht => ?_⟩
  · exact hpw.perm hperm.symm (fun h => Ne.symm h)
  · obtain ⟨x, hx, hk⟩ := (hdom c hc).1
    exact ⟨x, hperm.mem_iff.mpr hx, hk⟩
  · exact (hdom c hc).2 x (hperm.mem_iff.mp hx) hk ht

/-- Witness for the amended C4 at a concrete one-record input with a known
nonzero size. -/
theorem fetch_streams_dedup_dominance_witness :
    (fetch_streams [rSized]).Pairwise (fun a b => dedupKey a ≠ dedupKey b) ∧
    (∃ x ∈ fetch_streams [rSized], dedupKey x = dedupKey (toOption rSized)) ∧
    (truthyNat (toOption rSized).filesize = true ∧
      sizeVal (toOption rSized).filesize ≤ sizeVal (toOption rSized).filesize) :=
  ⟨(fetch_streams_dedup_dominance [rSized]).1,
   (fetch_streams_dedup_dominance [rSized]).2.1 (toOption rSized) (by decide),
   (fetch_streams_dedup_dominance [rSized]).2.2 (toOption rSized) (by decide)
     (toOption rSized) (by decide) rfl (by decide)⟩
